import Mathlib

/-!
Shallow embedding of the prioritized update-queue module
(`ReactFiberUpdateQueue`): a persistent singly-linked list of `Update`
records shared between the two queue views of a fiber pair, processed at a
render priority by `processUpdateQueue` and committed by
`commitUpdateQueue`.

Mutable JS objects are modelled with an explicit heap: `Update` records
live in a list indexed by natural numbers, and the `next` / `nextEffect`
pointers are optional indices.  `UpdateQueue` objects likewise live in a
list so that the source's identity comparisons (`queue1 === queue2`)
become index equality.  Expiration times are naturals; `NoWork` is the
sentinel `0` exported by `ReactFiberExpirationTime` (smaller nonzero
values are more urgent).  The `process` callback becomes an optional
state transformer, and the side-effecting `commit` callback becomes an
optional label of type `κ`; firing a commit appends its label to a log,
which makes order and multiplicity of commit calls observable.
-/

namespace React

/-- The `NoWork` sentinel from `ReactFiberExpirationTime` (value `0`):
"no pending work".  All comparisons against it in the queue module are
explicit equality tests, mirrored verbatim below. -/
def NoWork : Nat := 0

/-- One requested transition: `Update<State>` from the source.  `process`
and `commit` are the two optional callbacks; `next` links the persistent
list and `nextEffect` the transient effect list, both as heap indices. -/
structure Update (σ κ : Type) where
  expirationTime : Nat
  process : Option (σ → σ)
  commit : Option κ
  next : Option Nat
  nextEffect : Option Nat

instance : Inhabited (Update σ κ) :=
  ⟨{ expirationTime := 0, process := none, commit := none, next := none, nextEffect := none }⟩

/-- The heap of `Update` records; a pointer is an index into this list. -/
abbrev Heap (σ κ : Type) := List (Update σ κ)

/-- Dereference an update pointer (out-of-range reads give the inert
default record, which no theorem below relies on). -/
def getUpd (heap : Heap σ κ) (i : Nat) : Update σ κ :=
  (heap[i]?).getD default

/-- Write an update record back to the heap (out of range: no-op). -/
def setUpd (heap : Heap σ κ) (i : Nat) (u : Update σ κ) : Heap σ κ :=
  heap.set i u

/-- `UpdateQueue<State>` from the source: one view's pending work. -/
structure UpdateQueue (σ : Type) where
  expirationTime : Nat
  baseState : σ
  firstUpdate : Option Nat
  lastUpdate : Option Nat
  firstRenderPhaseUpdate : Option Nat
  lastRenderPhaseUpdate : Option Nat
  firstCapturedUpdate : Option Nat
  lastCapturedUpdate : Option Nat
  firstEffect : Option Nat
  lastEffect : Option Nat

instance [Inhabited σ] : Inhabited (UpdateQueue σ) :=
  ⟨{ expirationTime := 0, baseState := default, firstUpdate := none, lastUpdate := none,
     firstRenderPhaseUpdate := none, lastRenderPhaseUpdate := none,
     firstCapturedUpdate := none, lastCapturedUpdate := none,
     firstEffect := none, lastEffect := none }⟩

/-- The fiber fields the queue module touches: `updateQueue` (an index
into the queue heap), `memoizedState`, and the `UpdateQueue` bit of
`effectTag`, modelled as a `Bool`. -/
structure Fiber (σ : Type) where
  updateQueue : Option Nat
  memoizedState : σ
  effectTag : Bool

/-- The mutable world: the update heap, the queue heap, the fiber the
operation targets together with its `alternate`, and the log of commit
labels fired so far by the committer. -/
structure World (σ κ : Type) where
  heap : Heap σ κ
  queues : List (UpdateQueue σ)
  fiber : Fiber σ
  alternate : Option (Fiber σ)
  fired : List κ

/-- Dereference a queue pointer. -/
def getQueue [Inhabited σ] (w : World σ κ) (i : Nat) : UpdateQueue σ :=
  (w.queues[i]?).getD default

/-- Allocate a fresh queue object, returning its identity (index). -/
def allocQueue (w : World σ κ) (q : UpdateQueue σ) : Nat × World σ κ :=
  (w.queues.length, { w with queues := w.queues ++ [q] })

/-- `createUpdateQueue(baseState)` (the DEV-only `isProcessing` flag is
omitted throughout; it has no functional effect). -/
def createUpdateQueue (baseState : σ) : UpdateQueue σ :=
  { expirationTime := NoWork, baseState := baseState,
    firstUpdate := none, lastUpdate := none,
    firstRenderPhaseUpdate := none, lastRenderPhaseUpdate := none,
    firstCapturedUpdate := none, lastCapturedUpdate := none,
    firstEffect := none, lastEffect := none }

/-- `cloneUpdateQueue(currentQueue)`: shares the persistent list head and
tail, clears the render-phase, captured and effect lists. -/
def cloneUpdateQueue (currentQueue : UpdateQueue σ) : UpdateQueue σ :=
  { expirationTime := currentQueue.expirationTime,
    baseState := currentQueue.baseState,
    firstUpdate := currentQueue.firstUpdate,
    lastUpdate := currentQueue.lastUpdate,
    firstRenderPhaseUpdate := none, lastRenderPhaseUpdate := none,
    firstCapturedUpdate := none, lastCapturedUpdate := none,
    firstEffect := none, lastEffect := none }

/-- `createUpdate(expirationTime)`. -/
def createUpdate (expirationTime : Nat) : Update σ κ :=
  { expirationTime := expirationTime, process := none, commit := none,
    next := none, nextEffect := none }

/-- `appendUpdateToQueue(queue, update, expirationTime)`: append the
update (by pointer `u`) to the end of the persistent list, then tighten
the queue's aggregate expiration time if the incoming one is earlier.
Returns the mutated heap and queue record. -/
def appendUpdateToQueue (heap : Heap σ κ) (q : UpdateQueue σ) (u : Nat)
    (expirationTime : Nat) : Heap σ κ × UpdateQueue σ :=
  let (heap, q) :=
    match q.lastUpdate with
    | none =>
      -- Queue is empty
      (heap, { q with firstUpdate := some u, lastUpdate := some u })
    | some l =>
      (setUpd heap l { getUpd heap l with next := some u },
       { q with lastUpdate := some u })
  let q :=
    if q.expirationTime = NoWork ∨ expirationTime < q.expirationTime then
      { q with expirationTime := expirationTime }
    else q
  (heap, q)

/-- `enqueueUpdate(fiber, update, expirationTime)`: lazily create or
clone the (up to two) queue views, then append the update to the
persistent list of each, exploiting structural sharing when both tails
already coincide.  `u` is the heap index of an already-created update. -/
def enqueueUpdate [Inhabited σ] (w : World σ κ) (u : Nat) (expirationTime : Nat) :
    World σ κ :=
  match w.alternate with
  | none =>
    -- There's only one fiber, hence queue2 === null: a single queue.
    let (q1, w) :=
      match w.fiber.updateQueue with
      | some q1 => (q1, w)
      | none =>
        let (q1, w) := allocQueue w (createUpdateQueue w.fiber.memoizedState)
        (q1, { w with fiber := { w.fiber with updateQueue := some q1 } })
    let (heap, qv) := appendUpdateToQueue w.heap (getQueue w q1) u expirationTime
    { w with heap := heap, queues := w.queues.set q1 qv }
  | some alt =>
    -- There are two owners.
    let (q1, q2, w) :=
      match w.fiber.updateQueue, alt.updateQueue with
      | none, none =>
        -- Neither fiber has an update queue. Create new ones.
        let (q1, w) := allocQueue w (createUpdateQueue w.fiber.memoizedState)
        let (q2, w) := allocQueue w (createUpdateQueue alt.memoizedState)
        (q1, q2, { w with fiber := { w.fiber with updateQueue := some q1 },
                          alternate := some { alt with updateQueue := some q2 } })
      | none, some q2 =>
        -- Only one fiber has an update queue. Clone to create a new one.
        let (q1, w) := allocQueue w (cloneUpdateQueue (getQueue w q2))
        (q1, q2, { w with fiber := { w.fiber with updateQueue := some q1 } })
      | some q1, none =>
        let (q2, w) := allocQueue w (cloneUpdateQueue (getQueue w q1))
        (q1, q2, { w with alternate := some { alt with updateQueue := some q2 } })
      | some q1, some q2 =>
        -- Both owners have an update queue.
        (q1, q2, w)
    if q1 = q2 then
      -- There's only a single queue.
      let (heap, qv) := appendUpdateToQueue w.heap (getQueue w q1) u expirationTime
      { w with heap := heap, queues := w.queues.set q1 qv }
    else if (getQueue w q1).lastUpdate = none ∨ (getQueue w q2).lastUpdate = none then
      -- One of the queues is empty. We must add the update to both queues.
      let (heap, qa) := appendUpdateToQueue w.heap (getQueue w q1) u expirationTime
      let w := { w with heap := heap, queues := w.queues.set q1 qa }
      let (heap, qb) := appendUpdateToQueue w.heap (getQueue w q2) u expirationTime
      { w with heap := heap, queues := w.queues.set q2 qb }
    else
      -- Both queues are non-empty. The last update is the same in both lists,
      -- because of structural sharing. So, only append to one of the lists.
      let (heap, qa) := appendUpdateToQueue w.heap (getQueue w q1) u expirationTime
      let w := { w with heap := heap, queues := w.queues.set q1 qa }
      -- But we still need to update the lastUpdate pointer of queue2.
      let q2v := getQueue w q2
      { w with queues := w.queues.set q2 { q2v with lastUpdate := some u } }

/-- `addToEffectList(queue, update)`: reset the update's `nextEffect`
link (a prior aborted render may have left it dangling) and append it to
the queue's transient effect list. -/
def addToEffectList (heap : Heap σ κ) (q : UpdateQueue σ) (u : Nat) :
    Heap σ κ × UpdateQueue σ :=
  let heap := setUpd heap u { getUpd heap u with nextEffect := none }
  match q.lastEffect with
  | none => (heap, { q with firstEffect := some u, lastEffect := some u })
  | some l =>
    (setUpd heap l { getUpd heap l with nextEffect := some u },
     { q with lastEffect := some u })

/-- `processSingleUpdate(workInProgress, queue, update, prevState)`: if
the update carries a commit action, set the fiber's `UpdateQueue` effect
bit and add the update to the effect list; if it carries a process
transform, apply it to the previous state. -/
def processSingleUpdate (heap : Heap σ κ) (q : UpdateQueue σ) (effectTag : Bool)
    (u : Nat) (prevState : σ) : Heap σ κ × UpdateQueue σ × Bool × σ :=
  let commit := (getUpd heap u).commit
  let process := (getUpd heap u).process
  let r : Heap σ κ × UpdateQueue σ × Bool :=
    match commit with
    | some _ =>
      let e := addToEffectList heap q u
      (e.1, e.2, true)
    | none => (heap, q, effectTag)
  match process with
  | some f => (r.1, r.2.1, r.2.2, f prevState)
  | none => (r.1, r.2.1, r.2.2, prevState)

/-- `ensureWorkInProgressQueueIsAClone(workInProgress, queue)`: if the
work-in-progress queue is (by identity) the current fiber's queue, clone
it first (copy-on-write) and repoint `workInProgress.updateQueue`. -/
def ensureWorkInProgressQueueIsAClone [Inhabited σ] (w : World σ κ) (qid : Nat) :
    Nat × World σ κ :=
  match w.alternate with
  | none => (qid, w)
  | some current =>
    if current.updateQueue = some qid then
      let (newQ, w) := allocQueue w (cloneUpdateQueue (getQueue w qid))
      (newQ, { w with fiber := { w.fiber with updateQueue := some newQ } })
    else (qid, w)

/-- The locals of one `processUpdateQueue` run, threaded through the
three list walks: the heap, the queue record being rebuilt, the fiber's
effect bit, the running `resultState`, the pending `newBaseState`, and
the recomputed aggregate `newExpirationTime`.  `baseWrites` is a ghost
counter, written nowhere else and read by no other field, that counts
how many times the walk executed the source line
`newBaseState = resultState` inside a skip branch. -/
structure ProcAcc (σ κ : Type) where
  heap : Heap σ κ
  queue : UpdateQueue σ
  effectTag : Bool
  resultState : σ
  newBaseState : σ
  newExpirationTime : Nat
  baseWrites : Nat

/-- One of the three structurally identical `while (update !== null)`
walks of `processUpdateQueue`, with the single textual difference between
them abstracted as `priorSkip`: whether an earlier list in this same run
already recorded a skipped update (the source consults `newFirstUpdate`
in the second walk and `newFirstUpdate`/`newFirstRenderPhaseUpdate` in
the third before writing `newBaseState`).  `newFirst` is this walk's own
first-skipped pointer, `upd` the cursor.  `fuel` bounds the traversal;
every concrete claim below supplies enough fuel for its lists. -/
def processListWalk (renderExpirationTime : Nat) (priorSkip : Bool) :
    Nat → ProcAcc σ κ → Option Nat → Option Nat → ProcAcc σ κ × Option Nat
  | 0, acc, newFirst, _ => (acc, newFirst)
  | _ + 1, acc, newFirst, none => (acc, newFirst)
  | fuel + 1, acc, newFirst, some u =>
    let updateExpirationTime := (getUpd acc.heap u).expirationTime
    if renderExpirationTime < updateExpirationTime then
      -- This update does not have sufficient priority. Skip it.
      let (acc, newFirst) :=
        match newFirst with
        | none =>
          -- This is the first skipped update in this list. If no earlier
          -- list skipped, the current result is the new base state.
          let acc :=
            if priorSkip then acc
            else { acc with newBaseState := acc.resultState,
                            baseWrites := acc.baseWrites + 1 }
          (acc, some u)
        | some _ => (acc, newFirst)
      let acc :=
        if acc.newExpirationTime = NoWork ∨ updateExpirationTime < acc.newExpirationTime then
          { acc with newExpirationTime := updateExpirationTime }
        else acc
      processListWalk renderExpirationTime priorSkip fuel acc newFirst
        (getUpd acc.heap u).next
    else
      -- This update does have sufficient priority. Process it.
      let p := processSingleUpdate acc.heap acc.queue acc.effectTag u acc.resultState
      let acc := { acc with heap := p.1, queue := p.2.1, effectTag := p.2.2.1,
                            resultState := p.2.2.2 }
      processListWalk renderExpirationTime priorSkip fuel acc newFirst
        (getUpd acc.heap u).next

/-- `processUpdateQueue(workInProgress, queue, renderExpirationTime)`,
returning the new world paired with the ghost count of `newBaseState`
recordings made inside the three walks.  Bails out untouched when the
aggregate priority is `NoWork` or weaker than the render priority;
otherwise clones the queue if still shared, walks the persistent,
render-phase and captured lists in that order, and stores the new base
state, list heads, aggregate priority and memoized state. -/
def processUpdateQueueAux [Inhabited σ] (fuel : Nat) (w : World σ κ) (qid : Nat)
    (renderExpirationTime : Nat) : World σ κ × Nat :=
  let q0 := getQueue w qid
  if q0.expirationTime = NoWork ∨ renderExpirationTime < q0.expirationTime then
    -- Insufficient priority. Bailout.
    (w, 0)
  else
    let cl := ensureWorkInProgressQueueIsAClone w qid
    let qid := cl.1
    let w := cl.2
    let queue := getQueue w qid
    let acc : ProcAcc σ κ :=
      { heap := w.heap, queue := queue, effectTag := w.fiber.effectTag,
        resultState := queue.baseState, newBaseState := queue.baseState,
        newExpirationTime := NoWork, baseWrites := 0 }
    -- Iterate through the list of updates to compute the result.
    let r1 := processListWalk renderExpirationTime false fuel acc none queue.firstUpdate
    let acc := r1.1
    let newFirstUpdate := r1.2
    -- Separately, iterate though the list of render phase updates.
    let r2 := processListWalk renderExpirationTime newFirstUpdate.isSome fuel acc none
      queue.firstRenderPhaseUpdate
    let acc := r2.1
    let newFirstRenderPhaseUpdate := r2.2
    -- Separately, iterate though the list of captured updates.
    let r3 := processListWalk renderExpirationTime
      (newFirstUpdate.isSome || newFirstRenderPhaseUpdate.isSome) fuel acc none
      queue.firstCapturedUpdate
    let acc := r3.1
    let newFirstCapturedUpdate := r3.2
    let queue := acc.queue
    let queue :=
      if newFirstUpdate = none then { queue with lastUpdate := none } else queue
    let (queue, effectTag) :=
      if newFirstRenderPhaseUpdate = none then
        ({ queue with lastRenderPhaseUpdate := none }, acc.effectTag)
      else (queue, true)
    let (queue, effectTag) :=
      if newFirstCapturedUpdate = none then
        ({ queue with lastCapturedUpdate := none }, effectTag)
      else (queue, true)
    let newBaseState :=
      if newFirstUpdate = none ∧ newFirstRenderPhaseUpdate = none ∧
          newFirstCapturedUpdate = none then
        -- We processed every update, without skipping. The new base
        -- state is the same as the result state.
        acc.resultState
      else acc.newBaseState
    let queue :=
      { queue with baseState := newBaseState, firstUpdate := newFirstUpdate,
                   firstRenderPhaseUpdate := newFirstRenderPhaseUpdate,
                   firstCapturedUpdate := newFirstCapturedUpdate,
                   expirationTime := acc.newExpirationTime }
    let fiber := { w.fiber with memoizedState := acc.resultState, effectTag := effectTag }
    ({ w with heap := acc.heap, queues := w.queues.set qid queue, fiber := fiber },
     acc.baseWrites)

/-- `processUpdateQueue` proper: the world component of the run. -/
def processUpdateQueue [Inhabited σ] (fuel : Nat) (w : World σ κ) (qid : Nat)
    (renderExpirationTime : Nat) : World σ κ :=
  (processUpdateQueueAux fuel w qid renderExpirationTime).1

/-- The committer's `while (effect !== null)` walk: fire (log) each
effect's commit action once, clearing the action reference first so it
cannot fire again, and follow `nextEffect`. -/
def commitEffectsWalk : Nat → Heap σ κ → Option Nat → List κ → Heap σ κ × List κ
  | 0, heap, _, fired => (heap, fired)
  | _ + 1, heap, none, fired => (heap, fired)
  | fuel + 1, heap, some e, fired =>
    let commit := (getUpd heap e).commit
    let (heap, fired) :=
      match commit with
      | some c => (setUpd heap e { getUpd heap e with commit := none }, fired ++ [c])
      | none => (heap, fired)
    commitEffectsWalk fuel heap (getUpd heap e).nextEffect fired

/-- `commitUpdateQueue(finishedWork, finishedQueue, renderExpirationTime)`:
splice a non-empty render-phase list (then a non-empty captured list) onto
the end of the persistent list — but, exactly as in the source, the link
into the persistent list is only made when `lastUpdate` is non-null —
then clear the effect list head/tail and fire the recorded commit
actions in effect-list order. -/
def commitUpdateQueue [Inhabited σ] (fuel : Nat) (w : World σ κ) (qid : Nat) :
    World σ κ :=
  let q := getQueue w qid
  let (heap, q) :=
    match q.firstRenderPhaseUpdate with
    | none => (w.heap, q)
    | some firstRP =>
      -- Join the render phase update list to the end of the normal list.
      let (heap, q) :=
        match q.lastUpdate with
        | none => (w.heap, q)
        | some l =>
          (setUpd w.heap l { getUpd w.heap l with next := some firstRP },
           { q with lastUpdate := q.lastRenderPhaseUpdate })
      -- Clear the list of render phase updates.
      (heap, { q with firstRenderPhaseUpdate := none, lastRenderPhaseUpdate := none })
  let (heap, q) :=
    match q.firstCapturedUpdate with
    | none => (heap, q)
    | some firstC =>
      -- Same with captured updates.
      let (heap, q) :=
        match q.lastUpdate with
        | none => (heap, q)
        | some l =>
          (setUpd heap l { getUpd heap l with next := some firstC },
           { q with lastUpdate := q.lastCapturedUpdate })
      (heap, { q with firstCapturedUpdate := none, lastCapturedUpdate := none })
  -- Commit the effects.
  let firstEffect := q.firstEffect
  let q := { q with firstEffect := none, lastEffect := none }
  let cw := commitEffectsWalk fuel heap firstEffect w.fired
  { w with heap := cw.1, queues := w.queues.set qid q, fired := cw.2 }

/-- `isChain heap p L`: starting from pointer `p` and following `next`
links, the traversal visits exactly the indices `L` and then reaches
`null`.  This is the observable content of one queue list. -/
def isChain (heap : Heap σ κ) : Option Nat → List Nat → Prop
  | none, [] => True
  | none, _ :: _ => False
  | some _, [] => False
  | some i, j :: L => i = j ∧ isChain heap (getUpd heap i).next L

/-- Chains are decidable, so concrete list shapes can be checked by
evaluation. -/
def isChainDec (heap : Heap σ κ) : (p : Option Nat) → (L : List Nat) →
    Decidable (isChain heap p L)
  | none, [] => .isTrue trivial
  | none, _ :: _ => .isFalse (fun h => h)
  | some _, [] => .isFalse (fun h => h)
  | some i, j :: L =>
    have : Decidable (isChain heap (getUpd heap i).next L) := isChainDec heap _ L
    decidable_of_iff (i = j ∧ isChain heap (getUpd heap i).next L) Iff.rfl

instance (heap : Heap σ κ) (p : Option Nat) (L : List Nat) :
    Decidable (isChain heap p L) := isChainDec heap p L

/-- A queue's persistent list is well formed with contents `L`: the
`firstUpdate` chain is exactly `L` and `lastUpdate` points at its last
element (or is null when `L` is empty). -/
def queueListWF (heap : Heap σ κ) (q : UpdateQueue σ) (L : List Nat) : Prop :=
  isChain heap q.firstUpdate L ∧ q.lastUpdate = L.getLast?

instance (heap : Heap σ κ) (q : UpdateQueue σ) (L : List Nat) :
    Decidable (queueListWF heap q L) :=
  decidable_of_iff (isChain heap q.firstUpdate L ∧ q.lastUpdate = L.getLast?) Iff.rfl

/-- Two heaps agree on every field of every update record except the
transient `nextEffect` link: same length, same `expirationTime`,
`process`, `commit` and `next` everywhere.  This is the frame a render
pass is allowed to touch on shared update records. -/
def sameExceptNextEffect (h h' : Heap σ κ) : Prop :=
  h'.length = h.length ∧ ∀ i : Nat,
    (getUpd h' i).expirationTime = (getUpd h i).expirationTime ∧
    (getUpd h' i).process = (getUpd h i).process ∧
    (getUpd h' i).commit = (getUpd h i).commit ∧
    (getUpd h' i).next = (getUpd h i).next

/-- A convenient queue literal: empty transient lists, given aggregate
priority, base state and persistent head/tail pointers. -/
def mkQueue (expirationTime : Nat) (baseState : σ) (firstUpdate lastUpdate : Option Nat) :
    UpdateQueue σ :=
  { expirationTime := expirationTime, baseState := baseState,
    firstUpdate := firstUpdate, lastUpdate := lastUpdate,
    firstRenderPhaseUpdate := none, lastRenderPhaseUpdate := none,
    firstCapturedUpdate := none, lastCapturedUpdate := none,
    firstEffect := none, lastEffect := none }

/-- The design-rationale scenario: base state `""` and persistent list
`A(prio 1) - B(prio 2) - C(prio 1) - D(prio 2)`, each update appending
its letter. -/
def abcdWorld : World String Nat :=
  { heap := [
      { expirationTime := 1, process := some (fun s => s ++ "A"), commit := none,
        next := some 1, nextEffect := none },
      { expirationTime := 2, process := some (fun s => s ++ "B"), commit := none,
        next := some 2, nextEffect := none },
      { expirationTime := 1, process := some (fun s => s ++ "C"), commit := none,
        next := some 3, nextEffect := none },
      { expirationTime := 2, process := some (fun s => s ++ "D"), commit := none,
        next := none, nextEffect := none } ],
    queues := [mkQueue 1 "" (some 0) (some 3)],
    fiber := { updateQueue := some 0, memoizedState := "", effectTag := false },
    alternate := none, fired := [] }

/-- A finished queue whose persistent list is empty while its
render-phase list still holds one leftover (skipped) update. -/
def orphanRenderPhaseWorld : World String Nat :=
  { heap := [
      { expirationTime := 2, process := some (fun s => s ++ "R"), commit := none,
        next := none, nextEffect := none } ],
    queues := [
      { expirationTime := 2, baseState := "", firstUpdate := none, lastUpdate := none,
        firstRenderPhaseUpdate := some 0, lastRenderPhaseUpdate := some 0,
        firstCapturedUpdate := none, lastCapturedUpdate := none,
        firstEffect := none, lastEffect := none } ],
    fiber := { updateQueue := some 0, memoizedState := "", effectTag := false },
    alternate := none, fired := [] }

/-- Four updates `A1, B2, C1, D2` that each carry a commit action
(labelled 10, 11, 12, 13) as well as a letter-appending transform. -/
def commitLogWorld : World String Nat :=
  { heap := [
      { expirationTime := 1, process := some (fun s => s ++ "A"), commit := some 10,
        next := some 1, nextEffect := none },
      { expirationTime := 2, process := some (fun s => s ++ "B"), commit := some 11,
        next := some 2, nextEffect := none },
      { expirationTime := 1, process := some (fun s => s ++ "C"), commit := some 12,
        next := some 3, nextEffect := none },
      { expirationTime := 2, process := some (fun s => s ++ "D"), commit := some 13,
        next := none, nextEffect := none } ],
    queues := [mkQueue 1 "" (some 0) (some 3)],
    fiber := { updateQueue := some 0, memoizedState := "", effectTag := false },
    alternate := none, fired := [] }

/-- First pass of the commit scenario: render at priority 1. -/
def commitPassOne : World String Nat := processUpdateQueue 20 commitLogWorld 0 1

/-- Commit of the first pass. -/
def commitPhaseOne : World String Nat := commitUpdateQueue 20 commitPassOne 0

/-- Second pass: render the residual queue at priority 2. -/
def commitPassTwo : World String Nat := processUpdateQueue 20 commitPhaseOne 0 2

/-- Commit of the second pass. -/
def commitPhaseTwo : World String Nat := commitUpdateQueue 20 commitPassTwo 0

/-- A node-pair whose two distinct queues share a one-element persistent
list (both tails point at update 0, aggregate priority 5); update 1 is a
fresh update of priority 3 about to be enqueued. -/
def sharedTailWorld : World String Nat :=
  { heap := [
      { expirationTime := 5, process := none, commit := none, next := none, nextEffect := none },
      { expirationTime := 3, process := none, commit := none, next := none, nextEffect := none } ],
    queues := [mkQueue 5 "" (some 0) (some 0), mkQueue 5 "" (some 0) (some 0)],
    fiber := { updateQueue := some 0, memoizedState := "", effectTag := false },
    alternate := some { updateQueue := some 1, memoizedState := "", effectTag := false },
    fired := [] }

/-- A node-pair with two distinct queues sharing the one-element
persistent list `[0]`; used to witness pairing fidelity with fresh
update 1. -/
def pairedQueuesWorld : World String Nat :=
  { heap := [
      { expirationTime := 4, process := none, commit := none, next := none, nextEffect := none },
      { expirationTime := 2, process := none, commit := none, next := none, nextEffect := none } ],
    queues := [mkQueue 4 "" (some 0) (some 0), mkQueue 4 "" (some 0) (some 0)],
    fiber := { updateQueue := some 0, memoizedState := "", effectTag := false },
    alternate := some { updateQueue := some 1, memoizedState := "", effectTag := false },
    fired := [] }

/-- A queue whose persistent list is fully consumed (`firstUpdate` null)
but which still holds a lower-priority render-phase update: its
aggregate priority is 2, its base state `"S"`, the fiber's memoized
state `"M"`. -/
def leftoverRenderPhaseWorld : World String Nat :=
  { heap := [
      { expirationTime := 2, process := some (fun s => s ++ "R"), commit := none,
        next := none, nextEffect := none } ],
    queues := [
      { expirationTime := 2, baseState := "S", firstUpdate := none, lastUpdate := none,
        firstRenderPhaseUpdate := some 0, lastRenderPhaseUpdate := some 0,
        firstCapturedUpdate := none, lastCapturedUpdate := none,
        firstEffect := none, lastEffect := none } ],
    fiber := { updateQueue := some 0, memoizedState := "M", effectTag := false },
    alternate := none, fired := [] }

/-- A fully-applied queue: all three lists null and aggregate `NoWork`. -/
def fullyAppliedWorld : World String Nat :=
  { heap := [], queues := [mkQueue NoWork "S" none none],
    fiber := { updateQueue := some 0, memoizedState := "S", effectTag := false },
    alternate := none, fired := [] }

/-- A freshly created, empty update queue on a lone fiber. -/
def emptyQueueWorld : World String Nat :=
  { heap := [], queues := [createUpdateQueue "init"],
    fiber := { updateQueue := some 0, memoizedState := "init", effectTag := false },
    alternate := none, fired := [] }

/-- A queue with one eligible and one skippable update, used to witness
the base-state single-write property on a run that actually skips. -/
def mixedPriorityWorld : World String Nat :=
  { heap := [
      { expirationTime := 1, process := some (fun s => s ++ "X"), commit := none,
        next := some 1, nextEffect := none },
      { expirationTime := 2, process := some (fun s => s ++ "Y"), commit := none,
        next := none, nextEffect := none } ],
    queues := [mkQueue 1 "" (some 0) (some 1)],
    fiber := { updateQueue := some 0, memoizedState := "", effectTag := false },
    alternate := none, fired := [] }

/-- Persistent list of two updates that both carry commit actions; the
second one's effect-list linkage will overwrite the first one's
`nextEffect` field. -/
def twoCommitsWorld : World String Nat :=
  { heap := [
      { expirationTime := 1, process := none, commit := some 7, next := some 1, nextEffect := none },
      { expirationTime := 1, process := none, commit := some 8, next := none, nextEffect := none } ],
    queues := [mkQueue 1 "" (some 0) (some 1)],
    fiber := { updateQueue := some 0, memoizedState := "", effectTag := false },
    alternate := none, fired := [] }

/-- A lone fiber (no alternate) with a single queue holding the
one-element persistent list `[0]`; update 1 is fresh. -/
def singleQueueWorld : World String Nat :=
  { heap := [
      { expirationTime := 4, process := none, commit := none, next := none, nextEffect := none },
      { expirationTime := 2, process := none, commit := none, next := none, nextEffect := none } ],
    queues := [mkQueue 4 "" (some 0) (some 0)],
    fiber := { updateQueue := some 0, memoizedState := "", effectTag := false },
    alternate := none, fired := [] }

/-- `isEffChain heap p E`: starting from pointer `p` and following
`nextEffect` links, the traversal visits exactly the indices `E` and
then reaches `null` — the observable content of a transient effect
list. -/
def isEffChain (heap : Heap σ κ) : Option Nat → List Nat → Prop
  | none, [] => True
  | none, _ :: _ => False
  | some _, [] => False
  | some i, j :: E => i = j ∧ isEffChain heap (getUpd heap i).nextEffect E

/-- The updates of `L` that a pass at priority `t` both applies and adds
to the effect list: eligible (`expirationTime ≤ t`) and carrying a
commit action. -/
def eligCommitted (heap : Heap σ κ) (t : Nat) (L : List Nat) : List Nat :=
  L.filter fun u =>
    !decide (t < (getUpd heap u).expirationTime) && (getUpd heap u).commit.isSome

/-- The commit labels of the records `E`, in order, skipping cleared
(null) references. -/
def commitsOf (heap : Heap σ κ) (E : List Nat) : List κ :=
  E.filterMap fun e => (getUpd heap e).commit

/-- For each enqueued update in order: its commit label when it is
eligible at priority `t` and carries one — the labels the accepted pass
must fire, exactly once each, in enqueue order. -/
def eligibleCommits (heap : Heap σ κ) (t : Nat) (L : List Nat) : List κ :=
  L.filterMap fun u =>
    if t < (getUpd heap u).expirationTime then none else (getUpd heap u).commit

end React

namespace React

/-! ## Basic heap lemmas -/

theorem getUpd_setUpd_self (heap : Heap σ κ) (i : Nat) (u : Update σ κ)
    (h : i < heap.length) : getUpd (setUpd heap i u) i = u := by
  simp [getUpd, setUpd, List.getElem?_set_self h]

theorem getUpd_setUpd_ne (heap : Heap σ κ) (i j : Nat) (u : Update σ κ)
    (h : i ≠ j) : getUpd (setUpd heap i u) j = getUpd heap j := by
  simp [getUpd, setUpd, List.getElem?_set_ne h]

/-- Appending a fresh terminal node: if the chain from `p` is `M ++ [l]`
and we redirect `l.next` to a node `u` whose own `next` is null, the
chain from `p` becomes `M ++ [l, u]`. -/
theorem isChain_append_tail (heap : Heap σ κ) (l u : Nat)
    (hul : u ≠ l) (hl : l < heap.length) (hun : (getUpd heap u).next = none) :
    ∀ (M : List Nat) (p : Option Nat), l ∉ M → isChain heap p (M ++ [l]) →
      isChain (setUpd heap l { getUpd heap l with next := some u }) p (M ++ [l, u]) := by
  intro M
  induction M with
  | nil =>
    intro p _ hch
    rcases p with _ | i
    · exact absurd hch (by simp [isChain])
    · obtain ⟨h1, -⟩ := hch
      refine ⟨h1, ?_⟩
      rw [h1, getUpd_setUpd_self _ _ _ hl]
      exact ⟨rfl, by rw [getUpd_setUpd_ne _ _ _ _ (Ne.symm hul), hun]; trivial⟩
  | cons m M ih =>
    intro p hlM hch
    rcases p with _ | i
    · exact absurd hch (by simp [isChain])
    · obtain ⟨h1, htail⟩ := hch
      have hml : m ≠ l := fun h => hlM (by simp [h])
      refine ⟨h1, ?_⟩
      rw [h1] at htail ⊢
      rw [getUpd_setUpd_ne _ _ _ _ (Ne.symm hml)]
      exact ih _ (fun h => hlM (List.mem_cons_of_mem m h)) htail

/-- `appendUpdateToQueue` on a well-formed list `L` produces the
well-formed list `L ++ [u]` when `u` is fresh and terminal. -/
theorem appendUpdateToQueue_wf (heap : Heap σ κ) (q : UpdateQueue σ) (u t : Nat)
    (L : List Nat) (hwf : queueListWF heap q L) (hnd : L.Nodup)
    (hlen : ∀ i ∈ L, i < heap.length) (hu : u ∉ L)
    (hun : (getUpd heap u).next = none) :
    queueListWF (appendUpdateToQueue heap q u t).1 (appendUpdateToQueue heap q u t).2
      (L ++ [u]) := by
  obtain ⟨hch, hlast⟩ := hwf
  rcases List.eq_nil_or_concat L with rfl | ⟨M, l, rfl⟩
  · have hfu : q.lastUpdate = none := by simpa using hlast
    simp only [appendUpdateToQueue, hfu, List.nil_append]
    refine ⟨?_, ?_⟩
    · split <;> simp [isChain, hun]
    · split <;> simp
  · rw [List.concat_eq_append] at hch hnd hu hlen hlast ⊢
    have hlastl : q.lastUpdate = some l := by
      rw [hlast, List.getLast?_concat]
    have hl : l < heap.length := hlen l (by simp)
    have hul : u ≠ l := fun h => hu (h ▸ (by simp : l ∈ M ++ [l]))
    have hlM : l ∉ M := by
      rcases List.nodup_append.mp hnd with ⟨-, -, hdisj⟩
      intro hmem
      exact hdisj hmem (by simp)
    simp only [appendUpdateToQueue, hlastl]
    have hc := isChain_append_tail heap l u hul hl hun M q.firstUpdate hlM hch
    refine ⟨?_, ?_⟩
    · split <;> simpa [List.append_assoc] using hc
    · split <;> simp [List.getLast?_concat]

end React

namespace React

/-! ## Frame lemmas for the bailout fast path -/

/-- C8: Fast-path frame condition — whenever the queue's aggregate
priority is `NoWork` or weaker than the requested render priority,
`processUpdateQueue` returns the world entirely unchanged: no queue
field, no clone, no memoized state, no base state, no effect list. -/
theorem c8_fast_path_frame [Inhabited σ] (fuel : Nat) (w : World σ κ) (qid t : Nat)
    (h : (getQueue w qid).expirationTime = NoWork ∨ t < (getQueue w qid).expirationTime) :
    processUpdateQueue fuel w qid t = w := by
  simp only [processUpdateQueue, processUpdateQueueAux]
  rw [if_pos h]

/-- Witness for C8: a freshly created empty queue processed at priority 7
is left untouched. -/
theorem c8_witness : processUpdateQueue 5 emptyQueueWorld 0 7 = emptyQueueWorld :=
  c8_fast_path_frame 5 emptyQueueWorld 0 7 (Or.inl rfl)

/-- C7 (amended): re-running `processUpdateQueue` on a queue whose
aggregate priority is `NoWork` — the state a fully-applied queue is left
in after a pass that skipped nothing — is a no-op. -/
theorem c7_noop_when_no_work [Inhabited σ] (fuel : Nat) (w : World σ κ) (qid t : Nat)
    (h : (getQueue w qid).expirationTime = NoWork) :
    processUpdateQueue fuel w qid t = w := by
  simp only [processUpdateQueue, processUpdateQueueAux]
  rw [if_pos (Or.inl h)]

/-- Witness for C7: a fully-applied queue (all lists null, aggregate
`NoWork`) is untouched by another run. -/
theorem c7_witness : processUpdateQueue 3 fullyAppliedWorld 0 9 = fullyAppliedWorld :=
  c7_noop_when_no_work 3 fullyAppliedWorld 0 9 rfl

/-- C7 counterexample: a queue whose `firstUpdate` is already null is
not in general left alone — with a leftover lower-priority render-phase
update, a pass at that priority still mutates the queue and the node's
memoized state. -/
theorem c7_counterexample :
    (getQueue leftoverRenderPhaseWorld 0).firstUpdate = none ∧
    (processUpdateQueue 10 leftoverRenderPhaseWorld 0 2).fiber.memoizedState ≠
      leftoverRenderPhaseWorld.fiber.memoizedState ∧
    (getQueue (processUpdateQueue 10 leftoverRenderPhaseWorld 0 2) 0).expirationTime ≠
      (getQueue leftoverRenderPhaseWorld 0).expirationTime := by decide

/-! ## Concrete scenario theorems -/

/-- C1: the design-rationale scenario.  From base state `""` with
persistent updates `A1 - B2 - C1 - D2`, a pass at priority 1 memoizes
`"AC"`, leaves `baseState` at `"A"` and the residual persistent list at
`[B, C, D]`; the follow-up pass at priority 2 memoizes `"ABCD"`, which
is also what a single pass applying every update once in enqueue order
produces. -/
theorem c1_convergence :
    (processUpdateQueue 10 abcdWorld 0 1).fiber.memoizedState = "AC" ∧
    (getQueue (processUpdateQueue 10 abcdWorld 0 1) 0).baseState = "A" ∧
    isChain (processUpdateQueue 10 abcdWorld 0 1).heap
      (getQueue (processUpdateQueue 10 abcdWorld 0 1) 0).firstUpdate [1, 2, 3] ∧
    (processUpdateQueue 10 (processUpdateQueue 10 abcdWorld 0 1) 0 2).fiber.memoizedState
      = "ABCD" ∧
    (processUpdateQueue 10 abcdWorld 0 2).fiber.memoizedState = "ABCD" := by decide

/-- C2 failing input: a finished queue whose persistent list is empty
and whose render-phase list holds one leftover update.  The source's
`commitUpdateQueue` only links the render-phase list into the persistent
list when `lastUpdate` is non-null, so here it clears the render-phase
head/tail without splicing: afterwards the update is in no list at all —
it has been dropped, not retried, contradicting the splice-always
behaviour the claim (and the code's own comment) describes. -/
theorem c2_dropped_when_persistent_empty :
    (getQueue (commitUpdateQueue 10 orphanRenderPhaseWorld 0) 0).firstUpdate = none ∧
    (getQueue (commitUpdateQueue 10 orphanRenderPhaseWorld 0) 0).lastUpdate = none ∧
    (getQueue (commitUpdateQueue 10 orphanRenderPhaseWorld 0) 0).firstRenderPhaseUpdate
      = none ∧
    (getQueue (commitUpdateQueue 10 orphanRenderPhaseWorld 0) 0).lastRenderPhaseUpdate
      = none := by decide

/-- Supporting two-pass scenario for the commit-ordering development
below.  Pass 1 (priority 1) applies `A` and `C`; its commit fires
`[10, 12]` and leaves the memoized state computed by the pass untouched.
Pass 2 reprocesses the residual `[B, C, D]`; `C` is applied again but
its cleared commit reference keeps it off the effect list, so the second
commit fires only `[11, 13]`.  Every label fires exactly once across
both commits. -/
theorem commitScenarioTwoPasses :
    commitPassOne.fiber.memoizedState = "AC" ∧
    commitPhaseOne.fired = [10, 12] ∧
    commitPhaseOne.fiber.memoizedState = "AC" ∧
    commitPassTwo.fiber.memoizedState = "ABCD" ∧
    commitPhaseTwo.fired = [10, 12, 11, 13] ∧
    commitPhaseTwo.fired.count 10 = 1 ∧ commitPhaseTwo.fired.count 11 = 1 ∧
    commitPhaseTwo.fired.count 12 = 1 ∧ commitPhaseTwo.fired.count 13 = 1 := by decide

/-- C5 counterexample: on the structural-sharing path (both queues
non-empty), enqueueing a priority-3 update leaves the second view's
aggregate at its old, weaker value 5 — it is not tightened to 3. -/
theorem c5_counterexample :
    (getQueue (enqueueUpdate sharedTailWorld 1 3) 1).expirationTime = 5 ∧
    ¬(getQueue (enqueueUpdate sharedTailWorld 1 3) 1).expirationTime ≤ 3 := by decide

/-- C9 counterexample: processing two commit-carrying updates rewrites
the `nextEffect` field of the first shared persistent-list record (from
null to a pointer at the second), so the run does mutate a field of a
shared `Update` record. -/
theorem c9_counterexample :
    (getUpd twoCommitsWorld.heap 0).nextEffect = none ∧
    (getUpd (processUpdateQueue 10 twoCommitsWorld 0 1).heap 0).nextEffect = some 1 := by
  decide

end React
namespace React

/-! ## Enqueue pairing theorems -/

theorem appendUpdateToQueue_empty_heap (heap : Heap σ κ) (q : UpdateQueue σ) (u t : Nat)
    (h : q.lastUpdate = none) : (appendUpdateToQueue heap q u t).1 = heap := by
  simp only [appendUpdateToQueue, h]

theorem appendUpdateToQueue_last_heap (heap : Heap σ κ) (q : UpdateQueue σ) (u t l : Nat)
    (h : q.lastUpdate = some l) :
    (appendUpdateToQueue heap q u t).1 = setUpd heap l { getUpd heap l with next := some u } := by
  simp only [appendUpdateToQueue, h]

theorem appendUpdateToQueue_expiration (heap : Heap σ κ) (q : UpdateQueue σ) (u t : Nat) :
    ((appendUpdateToQueue heap q u t).2).expirationTime =
      if q.expirationTime = NoWork ∨ t < q.expirationTime then t else q.expirationTime := by
  simp only [appendUpdateToQueue]
  cases q.lastUpdate <;> split <;> simp_all

/-- C10: when the node has no alternate view, or both views reference
the same queue object by identity, `enqueueUpdate` appends the update
exactly once to that single queue: the persistent list becomes
`L ++ [u]` and a traversal sees `u` exactly one time. -/
theorem c10_single_queue_append [Inhabited σ] (w : World σ κ) (u t qid : Nat) (L : List Nat)
    (halt : w.alternate = none ∨ ∃ a, w.alternate = some a ∧ a.updateQueue = some qid)
    (hq : w.fiber.updateQueue = some qid)
    (hqid : qid < w.queues.length)
    (hwf : queueListWF w.heap (getQueue w qid) L)
    (hnd : L.Nodup)
    (hlen : ∀ i ∈ L, i < w.heap.length)
    (hu : u ∉ L)
    (hun : (getUpd w.heap u).next = none) :
    queueListWF (enqueueUpdate w u t).heap (getQueue (enqueueUpdate w u t) qid) (L ++ [u]) ∧
      (L ++ [u]).count u = 1 := by
  have happ := appendUpdateToQueue_wf w.heap (getQueue w qid) u t L hwf hnd hlen hu hun
  have hcount : (L ++ [u]).count u = 1 := by
    rw [List.count_append, List.count_eq_zero_of_not_mem hu]
    simp
  refine ⟨?_, hcount⟩
  rcases happE : appendUpdateToQueue w.heap (getQueue w qid) u t with ⟨heap2, qv⟩
  rw [happE] at happ
  rcases halt with halt | ⟨a, halt, ha⟩
  · simp only [enqueueUpdate, halt, hq, happE]
    simpa [getQueue, List.getElem?_set_self hqid] using happ
  · simp only [enqueueUpdate, halt, hq, ha, if_pos rfl, happE]
    simpa [getQueue, List.getElem?_set_self hqid] using happ

end React
namespace React

/-- C4: pairing fidelity.  On a node-pair where both views hold distinct
queues whose persistent lists are the same records `L` in the same
order, `enqueueUpdate` leaves both queues' persistent lists equal to
`L ++ [u]`: the same `Update` records in the same order, the new update
as the shared tail of both, and no record duplicated in either
traversal. -/
theorem c4_pairing_fidelity [Inhabited σ] (w : World σ κ) (u t q1 q2 : Nat) (a : Fiber σ)
    (L : List Nat)
    (halt : w.alternate = some a)
    (hq1 : w.fiber.updateQueue = some q1)
    (hq2 : a.updateQueue = some q2)
    (hne : q1 ≠ q2)
    (hq1len : q1 < w.queues.length) (hq2len : q2 < w.queues.length)
    (hwf1 : queueListWF w.heap (getQueue w q1) L)
    (hwf2 : queueListWF w.heap (getQueue w q2) L)
    (hnd : L.Nodup) (hlen : ∀ i ∈ L, i < w.heap.length)
    (hu : u ∉ L) (hun : (getUpd w.heap u).next = none) :
    queueListWF (enqueueUpdate w u t).heap (getQueue (enqueueUpdate w u t) q1) (L ++ [u]) ∧
    queueListWF (enqueueUpdate w u t).heap (getQueue (enqueueUpdate w u t) q2) (L ++ [u]) ∧
    (L ++ [u]).count u = 1 := by
  have hcount : (L ++ [u]).count u = 1 := by
    rw [List.count_append, List.count_eq_zero_of_not_mem hu]; simp
  have happ1 := appendUpdateToQueue_wf w.heap (getQueue w q1) u t L hwf1 hnd hlen hu hun
  have hq2ne1 : q2 ≠ q1 := Ne.symm hne
  rcases List.eq_nil_or_concat L with rfl | ⟨M, l, rfl⟩
  · -- Both persistent lists are empty: the update is appended to each queue.
    have hlu1 : (getQueue w q1).lastUpdate = none := by simpa using hwf1.2
    have hlu2 : (getQueue w q2).lastUpdate = none := by simpa using hwf2.2
    have happ2 := appendUpdateToQueue_wf w.heap (getQueue w q2) u t [] hwf2 hnd hlen hu hun
    rcases hE1 : appendUpdateToQueue w.heap (getQueue w q1) u t with ⟨heap2, qa⟩
    have hheap2 : heap2 = w.heap := by
      have h := appendUpdateToQueue_empty_heap w.heap (getQueue w q1) u t hlu1
      rw [hE1] at h; exact h
    subst hheap2
    rcases hE2 : appendUpdateToQueue w.heap (getQueue w q2) u t with ⟨heap3, qb⟩
    have hheap3 : heap3 = w.heap := by
      have h := appendUpdateToQueue_empty_heap w.heap (getQueue w q2) u t hlu2
      rw [hE2] at h; exact h
    subst hheap3
    rw [hE1] at happ1
    rw [hE2] at happ2
    simp only [getQueue] at hlu1 hlu2 hE1 hE2
    have hlt2 : q2 < (w.queues.set q1 qa).length := by simpa using hq2len
    refine ⟨?_, ?_, hcount⟩
    · simpa [enqueueUpdate, halt, hq1, hq2, hne, hlu1, hlu2, getQueue, hE1, hE2,
        List.getElem?_set_ne hne, List.getElem?_set_ne hq2ne1,
        List.getElem?_set_self hq1len, List.getElem?_set_self hlt2] using happ1
    · simpa [enqueueUpdate, halt, hq1, hq2, hne, hlu1, hlu2, getQueue, hE1, hE2,
        List.getElem?_set_ne hne, List.getElem?_set_ne hq2ne1,
        List.getElem?_set_self hq1len, List.getElem?_set_self hlt2] using happ2
  · -- Both lists end in the shared tail `l`: append once to queue 1 and
    -- repoint queue 2's lastUpdate.
    rw [List.concat_eq_append] at hwf1 hwf2 hnd hlen hu happ1 hcount ⊢
    have hlastL : (M ++ [l]).getLast? = some l := List.getLast?_concat M
    have hlu1 : (getQueue w q1).lastUpdate = some l := by rw [hwf1.2, hlastL]
    have hlu2 : (getQueue w q2).lastUpdate = some l := by rw [hwf2.2, hlastL]
    have hul : u ≠ l := fun h => hu (h ▸ (by simp : l ∈ M ++ [l]))
    have hl : l < w.heap.length := hlen l (by simp)
    have hlM : l ∉ M := by
      rcases List.nodup_append.mp hnd with ⟨-, -, hdisj⟩
      exact fun hmem => hdisj hmem (by simp)
    rcases hE1 : appendUpdateToQueue w.heap (getQueue w q1) u t with ⟨heap2, qa⟩
    have hheap2 : heap2 = setUpd w.heap l { getUpd w.heap l with next := some u } := by
      have h := appendUpdateToQueue_last_heap w.heap (getQueue w q1) u t l hlu1
      rw [hE1] at h; exact h
    rw [hE1] at happ1
    have hchain2 : isChain heap2 (getQueue w q2).firstUpdate (M ++ [l, u]) := by
      rw [hheap2]
      exact isChain_append_tail w.heap l u hul hl hun M (getQueue w q2).firstUpdate hlM hwf2.1
    simp only [getQueue] at hlu1 hlu2 hE1 hchain2
    have hlt2 : q2 < (w.queues.set q1 qa).length := by simpa using hq2len
    refine ⟨?_, ?_, hcount⟩
    · simpa [enqueueUpdate, halt, hq1, hq2, hne, hlu1, hlu2, getQueue, hE1,
        List.getElem?_set_ne hne, List.getElem?_set_ne hq2ne1,
        List.getElem?_set_self hq1len, List.getElem?_set_self hlt2] using happ1
    · refine ⟨?_, ?_⟩
      · simp [enqueueUpdate, halt, hq1, hq2, hne, hlu1, hlu2, getQueue, hE1,
          List.getElem?_set_ne hne, List.getElem?_set_ne hq2ne1,
          List.getElem?_set_self hq1len, List.getElem?_set_self hlt2]
        simpa [List.append_assoc] using hchain2
      · simp [enqueueUpdate, halt, hq1, hq2, hne, hlu1, hlu2, getQueue, hE1,
          List.getElem?_set_ne hne, List.getElem?_set_ne hq2ne1,
          List.getElem?_set_self hq1len, List.getElem?_set_self hlt2,
          List.getLast?_concat]

end React
namespace React

/-- C5 (amended): after `enqueueUpdate` of priority `t` on a node-pair
with two distinct non-empty queues (the structural-sharing path), the
first view's aggregate is tightened to `t` when it was `NoWork` or
weaker, but the second view — whose `lastUpdate` pointer is merely
re-pointed — keeps its aggregate expiration time unchanged. -/
theorem c5_sharing_path_aggregate [Inhabited σ] (w : World σ κ) (u t q1 q2 l1 l2 : Nat)
    (a : Fiber σ)
    (halt : w.alternate = some a)
    (hq1 : w.fiber.updateQueue = some q1)
    (hq2 : a.updateQueue = some q2)
    (hne : q1 ≠ q2)
    (hq1len : q1 < w.queues.length) (hq2len : q2 < w.queues.length)
    (hlu1 : (getQueue w q1).lastUpdate = some l1)
    (hlu2 : (getQueue w q2).lastUpdate = some l2) :
    (getQueue (enqueueUpdate w u t) q1).expirationTime =
      (if (getQueue w q1).expirationTime = NoWork ∨ t < (getQueue w q1).expirationTime
       then t else (getQueue w q1).expirationTime) ∧
    (getQueue (enqueueUpdate w u t) q2).expirationTime =
      (getQueue w q2).expirationTime := by
  have hq2ne1 : q2 ≠ q1 := Ne.symm hne
  have hexp := appendUpdateToQueue_expiration w.heap (getQueue w q1) u t
  rcases hE1 : appendUpdateToQueue w.heap (getQueue w q1) u t with ⟨heap2, qa⟩
  rw [hE1] at hexp
  simp only [getQueue] at hlu1 hlu2 hexp hE1 ⊢
  have hlt2 : q2 < (w.queues.set q1 qa).length := by simpa using hq2len
  refine ⟨?_, ?_⟩
  · simp [enqueueUpdate, halt, hq1, hq2, hne, hlu1, hlu2, getQueue, hE1,
      List.getElem?_set_ne hne, List.getElem?_set_ne hq2ne1,
      List.getElem?_set_self hq1len, List.getElem?_set_self hlt2, hexp]
  · simp [enqueueUpdate, halt, hq1, hq2, hne, hlu1, hlu2, getQueue, hE1,
      List.getElem?_set_ne hne, List.getElem?_set_ne hq2ne1,
      List.getElem?_set_self hq1len, List.getElem?_set_self hlt2]

end React
namespace React

/-- Witness for C4 at a concrete paired world: both queues end up with
persistent list `[0, 1]` and the fresh update appears once. -/
theorem c4_witness :
    queueListWF (enqueueUpdate pairedQueuesWorld 1 2).heap
      (getQueue (enqueueUpdate pairedQueuesWorld 1 2) 0) [0, 1] ∧
    queueListWF (enqueueUpdate pairedQueuesWorld 1 2).heap
      (getQueue (enqueueUpdate pairedQueuesWorld 1 2) 1) [0, 1] ∧
    ([0, 1] : List Nat).count 1 = 1 :=
  c4_pairing_fidelity pairedQueuesWorld 1 2 0 1
    { updateQueue := some 1, memoizedState := "", effectTag := false } [0]
    rfl rfl rfl (by decide) (by decide) (by decide) (by decide) (by decide)
    (by decide) (by decide) (by decide) (by decide)

/-- Witness for C5's amended theorem: on the shared-tail world the first
view is tightened to 3 while the second stays at 5. -/
theorem c5_witness :
    (getQueue (enqueueUpdate sharedTailWorld 1 3) 0).expirationTime = 3 ∧
    (getQueue (enqueueUpdate sharedTailWorld 1 3) 1).expirationTime = 5 := by
  have h := c5_sharing_path_aggregate sharedTailWorld 1 3 0 1 0 0
    { updateQueue := some 1, memoizedState := "", effectTag := false }
    rfl rfl rfl (by decide) (by decide) (by decide) (by decide) (by decide)
  exact ⟨by rw [h.1]; decide, by rw [h.2]; decide⟩

/-- Witness for C10 at a lone-fiber world: the single queue's list
becomes `[0, 1]` with the fresh update occurring once. -/
theorem c10_witness :
    queueListWF (enqueueUpdate singleQueueWorld 1 2).heap
      (getQueue (enqueueUpdate singleQueueWorld 1 2) 0) [0, 1] ∧
    ([0, 1] : List Nat).count 1 = 1 :=
  c10_single_queue_append singleQueueWorld 1 2 0 [0] (Or.inl rfl) rfl (by decide)
    (by decide) (by decide) (by decide) (by decide) (by decide)

end React
namespace React

/-! ## Base-state write accounting -/

/-- Once a walk has recorded a first skipped update, the pointer never
changes for the rest of the walk. -/
theorem processListWalk_newFirst_mono (t : Nat) (ps : Bool) :
    ∀ (fuel : Nat) (acc : ProcAcc σ κ) (x : Nat) (upd : Option Nat),
      (processListWalk t ps fuel acc (some x) upd).2 = some x := by
  intro fuel
  induction fuel with
  | zero => intro acc x upd; rfl
  | succ n ih =>
    intro acc x upd
    cases upd with
    | none => rfl
    | some u =>
      simp only [processListWalk]
      split
      · exact ih _ _ _
      · exact ih _ _ _

/-- Exact accounting of the ghost counter: one walk increments
`baseWrites` exactly once when it is the first walk to skip (no prior
skip, no first-skip pointer yet, and the walk does end with a skipped
update recorded), and never otherwise. -/
theorem processListWalk_baseWrites (t : Nat) (ps : Bool) :
    ∀ (fuel : Nat) (acc : ProcAcc σ κ) (nf upd : Option Nat),
      (processListWalk t ps fuel acc nf upd).1.baseWrites =
        acc.baseWrites +
          (if ps = false ∧ nf = none ∧ ((processListWalk t ps fuel acc nf upd).2).isSome
           then 1 else 0) := by
  intro fuel
  induction fuel with
  | zero => intro acc nf upd; simp [processListWalk]
  | succ n ih =>
    intro acc nf upd
    cases upd with
    | none => simp [processListWalk]
    | some u =>
      simp only [processListWalk]
      split
      · -- skip branch
        rw [ih]
        cases nf with
        | some x =>
          simp [processListWalk_newFirst_mono, apply_ite ProcAcc.baseWrites]
        | none =>
          rcases Bool.eq_false_or_eq_true ps with hps | hps
          · subst hps
            simp [processListWalk_newFirst_mono, apply_ite ProcAcc.baseWrites]
          · subst hps
            simp [processListWalk_newFirst_mono, apply_ite ProcAcc.baseWrites]
      · -- process branch
        rw [ih]

end React
namespace React

/-- Across the three walks of one run the ghost counter stays at most 1:
the first walk records a base state only if it skips, and a later walk
only if no earlier walk skipped. -/
theorem threeWalks_baseWrites_le (t fuel : Nat) (acc : ProcAcc σ κ)
    (h0 : acc.baseWrites = 0) (p1 p2 p3 : Option Nat)
    (r1 r2 r3 : ProcAcc σ κ × Option Nat)
    (h1 : r1 = processListWalk t false fuel acc none p1)
    (h2 : r2 = processListWalk t r1.2.isSome fuel r1.1 none p2)
    (h3 : r3 = processListWalk t (r1.2.isSome || r2.2.isSome) fuel r2.1 none p3) :
    r3.1.baseWrites ≤ 1 := by
  have hb1 := processListWalk_baseWrites t false fuel acc none p1
  have hb2 := processListWalk_baseWrites t r1.2.isSome fuel r1.1 none p2
  have hb3 := processListWalk_baseWrites t (r1.2.isSome || r2.2.isSome) fuel r2.1 none p3
  rw [← h1] at hb1
  rw [← h2] at hb2
  rw [← h3] at hb3
  rw [h0] at hb1
  cases hs1 : r1.2.isSome <;> cases hs2 : r2.2.isSome <;> cases hs3 : r3.2.isSome <;>
    simp [hs1, hs2, hs3] at hb1 hb2 hb3 <;> omega

/-- A queue index that passes the priority gate is in range: an
out-of-range read yields the default queue, whose aggregate is
`NoWork`. -/
theorem active_qid_lt [Inhabited σ] (w : World σ κ) (qid t : Nat)
    (h : ¬((getQueue w qid).expirationTime = NoWork ∨
            t < (getQueue w qid).expirationTime)) :
    qid < w.queues.length := by
  by_contra hge
  apply h
  left
  have hnone : w.queues[qid]? = none := List.getElem?_eq_none (Nat.le_of_not_lt hge)
  have hdef : getQueue w qid = default := by simp [getQueue, hnone]
  rw [hdef]
  rfl

/-- The copy-on-write step never touches the update heap. -/
theorem ensure_heap [Inhabited σ] (w : World σ κ) (qid : Nat) :
    (ensureWorkInProgressQueueIsAClone w qid).2.heap = w.heap := by
  unfold ensureWorkInProgressQueueIsAClone
  split
  · rfl
  · split
    · simp [allocQueue]
    · rfl

/-- The copy-on-write step returns an in-range queue index. -/
theorem ensure_qid_lt [Inhabited σ] (w : World σ κ) (qid : Nat)
    (h : qid < w.queues.length) :
    (ensureWorkInProgressQueueIsAClone w qid).1 <
      (ensureWorkInProgressQueueIsAClone w qid).2.queues.length := by
  unfold ensureWorkInProgressQueueIsAClone
  split
  · simpa using h
  · split
    · simp [allocQueue]
    · simpa using h

set_option maxHeartbeats 1000000 in
/-- C6: during one (non-bailout) run of `processUpdateQueue` over the
three lists, the `newBaseState = resultState` recording inside the walks
executes at most once, for every combination of skip positions (the
ghost counter returned by `processUpdateQueueAux` is at most 1); and if
no update in any list was skipped — all three residual heads are null —
the stored `baseState` equals the node's new memoized state. -/
theorem c6_base_state_single_write [Inhabited σ] (fuel : Nat) (w : World σ κ) (qid t : Nat)
    (h : ¬((getQueue w qid).expirationTime = NoWork ∨
            t < (getQueue w qid).expirationTime)) :
    (processUpdateQueueAux fuel w qid t).2 ≤ 1 ∧
    ((getQueue (processUpdateQueueAux fuel w qid t).1
        (ensureWorkInProgressQueueIsAClone w qid).1).firstUpdate = none ∧
     (getQueue (processUpdateQueueAux fuel w qid t).1
        (ensureWorkInProgressQueueIsAClone w qid).1).firstRenderPhaseUpdate = none ∧
     (getQueue (processUpdateQueueAux fuel w qid t).1
        (ensureWorkInProgressQueueIsAClone w qid).1).firstCapturedUpdate = none →
     (getQueue (processUpdateQueueAux fuel w qid t).1
        (ensureWorkInProgressQueueIsAClone w qid).1).baseState =
       (processUpdateQueueAux fuel w qid t).1.fiber.memoizedState) := by
  have hqlt := active_qid_lt w qid t h
  have hlt := ensure_qid_lt w qid hqlt
  constructor
  · simp only [processUpdateQueueAux]
    rw [if_neg h]
    exact threeWalks_baseWrites_le t fuel _ rfl _ _ _ _ _ _ rfl rfl rfl
  · intro hall
    simp only [processUpdateQueueAux, if_neg h] at hall ⊢
    simp only [getQueue, List.getElem?_set_self hlt, Option.getD_some] at hall ⊢
    obtain ⟨ha, hb, hc⟩ := hall
    simp only [ha, Option.isSome_none, Bool.false_or] at hb hc
    simp only [hb, Option.isSome_none, Bool.false_or] at hc
    simp [ha, hb, hc]

end React
namespace React

/-- Witness for C6: on a run that actually skips an update, the ghost
write counter is (at most) one. -/
theorem c6_witness : (processUpdateQueueAux 10 mixedPriorityWorld 0 1).2 ≤ 1 :=
  (c6_base_state_single_write 10 mixedPriorityWorld 0 1 (by decide)).1

/-! ## Heap frame of a render pass -/

theorem sameExceptNextEffect_refl (h : Heap σ κ) : sameExceptNextEffect h h :=
  ⟨rfl, fun _ => ⟨rfl, rfl, rfl, rfl⟩⟩

theorem sameExceptNextEffect_trans {h1 h2 h3 : Heap σ κ}
    (a : sameExceptNextEffect h1 h2) (b : sameExceptNextEffect h2 h3) :
    sameExceptNextEffect h1 h3 := by
  obtain ⟨al, af⟩ := a
  obtain ⟨bl, bf⟩ := b
  refine ⟨bl.trans al, fun i => ?_⟩
  obtain ⟨a1, a2, a3, a4⟩ := af i
  obtain ⟨b1, b2, b3, b4⟩ := bf i
  exact ⟨b1.trans a1, b2.trans a2, b3.trans a3, b4.trans a4⟩

/-- Writing back a record that differs only in `nextEffect` preserves
the frame. -/
theorem sameExceptNextEffect_setNE (h : Heap σ κ) (i : Nat) (x : Option Nat) :
    sameExceptNextEffect h (setUpd h i { getUpd h i with nextEffect := x }) := by
  refine ⟨by simp [setUpd], fun j => ?_⟩
  rcases eq_or_ne i j with rfl | hne
  · by_cases hlt : i < h.length
    · rw [getUpd_setUpd_self _ _ _ hlt]
      exact ⟨rfl, rfl, rfl, rfl⟩
    · have : setUpd h i { getUpd h i with nextEffect := x } = h :=
        List.set_eq_of_length_le (Nat.le_of_not_lt hlt)
      rw [this]
      exact ⟨rfl, rfl, rfl, rfl⟩
  · rw [getUpd_setUpd_ne _ _ _ _ hne]
    exact ⟨rfl, rfl, rfl, rfl⟩

theorem addToEffectList_sameExcept (heap : Heap σ κ) (q : UpdateQueue σ) (u : Nat) :
    sameExceptNextEffect heap (addToEffectList heap q u).1 := by
  unfold addToEffectList
  cases q.lastEffect with
  | none => exact sameExceptNextEffect_setNE heap u none
  | some l =>
    exact sameExceptNextEffect_trans (sameExceptNextEffect_setNE heap u none)
      (sameExceptNextEffect_setNE _ l (some u))

theorem processSingleUpdate_sameExcept (heap : Heap σ κ) (q : UpdateQueue σ)
    (et : Bool) (u : Nat) (s : σ) :
    sameExceptNextEffect heap (processSingleUpdate heap q et u s).1 := by
  unfold processSingleUpdate
  cases (getUpd heap u).commit with
  | none =>
    cases (getUpd heap u).process with
    | none => exact sameExceptNextEffect_refl heap
    | some f => exact sameExceptNextEffect_refl heap
  | some c =>
    cases (getUpd heap u).process with
    | none => exact addToEffectList_sameExcept heap q u
    | some f => exact addToEffectList_sameExcept heap q u

theorem processListWalk_sameExcept (t : Nat) (ps : Bool) :
    ∀ (fuel : Nat) (acc : ProcAcc σ κ) (nf upd : Option Nat),
      sameExceptNextEffect acc.heap (processListWalk t ps fuel acc nf upd).1.heap := by
  intro fuel
  induction fuel with
  | zero => intro acc nf upd; exact sameExceptNextEffect_refl _
  | succ n ih =>
    intro acc nf upd
    cases upd with
    | none => exact sameExceptNextEffect_refl _
    | some u =>
      simp only [processListWalk]
      split
      · -- skip branch: neither the first-skip recording nor the
        -- aggregate update touches the heap
        cases nf with
        | some x =>
          refine sameExceptNextEffect_trans ?_ (ih _ _ _)
          simpa [apply_ite ProcAcc.heap] using sameExceptNextEffect_refl acc.heap
        | none =>
          refine sameExceptNextEffect_trans ?_ (ih _ _ _)
          simpa [apply_ite ProcAcc.heap] using sameExceptNextEffect_refl acc.heap
      · -- process branch
        exact sameExceptNextEffect_trans (processSingleUpdate_sameExcept _ _ _ _ _) (ih _ _ _)

/-- C9 (amended): a run of `processUpdateQueue` leaves every field of
every `Update` record in the heap unchanged except the transient
`nextEffect` links — `expirationTime`, `process`, `commit` and `next`
are untouched everywhere, and the heap keeps its length.  Dropping the
cloned queue therefore remains a complete rollback, `nextEffect` being
reset whenever an update is re-added to an effect list. -/
theorem c9_heap_preservation [Inhabited σ] (fuel : Nat) (w : World σ κ) (qid t : Nat) :
    sameExceptNextEffect w.heap (processUpdateQueue fuel w qid t).heap := by
  simp only [processUpdateQueue, processUpdateQueueAux]
  split
  · exact sameExceptNextEffect_refl _
  · have h0 : (ensureWorkInProgressQueueIsAClone w qid).2.heap = w.heap :=
      ensure_heap w qid
    refine sameExceptNextEffect_trans ?_ (processListWalk_sameExcept _ _ _ _ _ _)
    refine sameExceptNextEffect_trans ?_ (processListWalk_sameExcept _ _ _ _ _ _)
    refine sameExceptNextEffect_trans ?_ (processListWalk_sameExcept _ _ _ _ _ _)
    rw [h0]
    exact sameExceptNextEffect_refl _

end React
namespace React

/-! ## Commit firing: general effect-list development -/

/-- Walking an empty pointer is the identity, whatever the fuel. -/
theorem processListWalk_none (t : Nat) (ps : Bool) (fuel : Nat) (acc : ProcAcc σ κ)
    (nf : Option Nat) : processListWalk t ps fuel acc nf none = (acc, nf) := by
  cases fuel <;> rfl

/-- A heap change that keeps every `next` field keeps every persistent
chain. -/
theorem isChain_sameExcept {h h' : Heap σ κ} (hs : sameExceptNextEffect h h') :
    ∀ (L : List Nat) (p : Option Nat), isChain h p L → isChain h' p L := by
  intro L
  induction L with
  | nil =>
    intro p hch
    cases p with
    | none => trivial
    | some i => exact absurd hch (fun h => h)
  | cons j L ih =>
    intro p hch
    cases p with
    | none => exact absurd hch (fun h => h)
    | some i =>
      obtain ⟨h1, htail⟩ := hch
      refine ⟨h1, ?_⟩
      rw [(hs.2 i).2.2.2]
      exact ih _ htail

/-- A heap change that keeps `expirationTime` and `commit` keeps the
eligible-and-committed sublist. -/
theorem eligCommitted_sameExcept {h h' : Heap σ κ} (hs : sameExceptNextEffect h h')
    (t : Nat) : ∀ (L : List Nat), eligCommitted h' t L = eligCommitted h t L := by
  intro L
  induction L with
  | nil => rfl
  | cons u L ih =>
    simp only [eligCommitted, List.filter_cons] at ih ⊢
    rw [(hs.2 u).1, (hs.2 u).2.2.1, ih]

/-- A heap change that keeps `commit` keeps the fired labels of a list. -/
theorem commitsOf_sameExcept {h h' : Heap σ κ} (hs : sameExceptNextEffect h h') :
    ∀ (E : List Nat), commitsOf h' E = commitsOf h E := by
  intro E
  induction E with
  | nil => rfl
  | cons e E ih =>
    simp only [commitsOf, List.filterMap_cons] at ih ⊢
    rw [(hs.2 e).2.2.1, ih]

/-- Writing any record at an index outside an effect chain keeps the
chain. -/
theorem isEffChain_set_notmem (heap : Heap σ κ) (i : Nat) (v : Update σ κ) :
    ∀ (E : List Nat) (p : Option Nat), i ∉ E → isEffChain heap p E →
      isEffChain (setUpd heap i v) p E := by
  intro E
  induction E with
  | nil =>
    intro p _ hch
    cases p with
    | none => trivial
    | some j => exact absurd hch (fun h => h)
  | cons e E ih =>
    intro p hmem hch
    cases p with
    | none => exact absurd hch (fun h => h)
    | some j =>
      obtain ⟨h1, htail⟩ := hch
      have hie : i ≠ e := fun hie => hmem (by simp [hie])
      refine ⟨h1, ?_⟩
      rw [getUpd_setUpd_ne _ _ _ _ (by rw [h1]; exact hie)]
      exact ih _ (fun hm => hmem (List.mem_cons_of_mem e hm)) htail

/-- Appending a fresh terminal node to an effect chain: redirect the
last node's `nextEffect` to `u`, whose own `nextEffect` is null. -/
theorem isEffChain_append_tail (heap : Heap σ κ) (l u : Nat)
    (hul : u ≠ l) (hl : l < heap.length) (hun : (getUpd heap u).nextEffect = none) :
    ∀ (M : List Nat) (p : Option Nat), l ∉ M → isEffChain heap p (M ++ [l]) →
      isEffChain (setUpd heap l { getUpd heap l with nextEffect := some u }) p
        (M ++ [l, u]) := by
  intro M
  induction M with
  | nil =>
    intro p _ hch
    rcases p with _ | i
    · exact absurd hch (fun h => h)
    · obtain ⟨h1, -⟩ := hch
      refine ⟨h1, ?_⟩
      rw [h1, getUpd_setUpd_self _ _ _ hl]
      exact ⟨rfl, by rw [getUpd_setUpd_ne _ _ _ _ (Ne.symm hul), hun]; trivial⟩
  | cons m M ih =>
    intro p hlM hch
    rcases p with _ | i
    · exact absurd hch (fun h => h)
    · obtain ⟨h1, htail⟩ := hch
      have hml : m ≠ l := fun h => hlM (by simp [h])
      refine ⟨h1, ?_⟩
      rw [h1] at htail ⊢
      rw [getUpd_setUpd_ne _ _ _ _ (Ne.symm hml)]
      exact ih _ (fun h => hlM (List.mem_cons_of_mem m h)) htail

/-- `addToEffectList` on a well-formed effect chain `E` yields the
chain `E ++ [u]` with `lastEffect` at the new node. -/
theorem addToEffectList_effChain (heap : Heap σ κ) (q : UpdateQueue σ) (u : Nat)
    (E : List Nat) (hch : isEffChain heap q.firstEffect E)
    (hlast : q.lastEffect = E.getLast?) (hnd : E.Nodup) (hu : u ∉ E)
    (hulen : u < heap.length) (hElen : ∀ i ∈ E, i < heap.length) :
    isEffChain (addToEffectList heap q u).1 (addToEffectList heap q u).2.firstEffect
      (E ++ [u]) ∧
    (addToEffectList heap q u).2.lastEffect = some u := by
  have hreset : (getUpd (setUpd heap u { getUpd heap u with nextEffect := none }) u).nextEffect
      = none := by
    rw [getUpd_setUpd_self _ _ _ hulen]
  rcases List.eq_nil_or_concat E with rfl | ⟨M, l, rfl⟩
  · have h0 : q.lastEffect = none := by simpa using hlast
    have hred : addToEffectList heap q u =
        (setUpd heap u { getUpd heap u with nextEffect := none },
         { q with firstEffect := some u, lastEffect := some u }) := by
      simp only [addToEffectList, h0]
    rw [hred]
    exact ⟨⟨rfl, by rw [hreset]; trivial⟩, rfl⟩
  · rw [List.concat_eq_append] at hch hnd hu hElen ⊢
    have hlastl : q.lastEffect = some l := by
      rw [hlast, List.concat_eq_append, List.getLast?_concat]
    have hul : u ≠ l := fun h => hu (h ▸ (by simp : l ∈ M ++ [l]))
    have hl : l < heap.length := hElen l (by simp)
    have hlM : l ∉ M := by
      rcases List.nodup_append.mp hnd with ⟨-, -, hdisj⟩
      exact fun hmem => hdisj hmem (by simp)
    have hred : addToEffectList heap q u =
        (setUpd (setUpd heap u { getUpd heap u with nextEffect := none }) l
           { getUpd (setUpd heap u { getUpd heap u with nextEffect := none }) l with
               nextEffect := some u },
         { q with lastEffect := some u }) := by
      simp only [addToEffectList, hlastl]
    rw [hred]
    refine ⟨?_, rfl⟩
    have hch1 : isEffChain (setUpd heap u { getUpd heap u with nextEffect := none })
        q.firstEffect (M ++ [l]) :=
      isEffChain_set_notmem heap u _ _ _ hu hch
    have hstep := isEffChain_append_tail
      (setUpd heap u { getUpd heap u with nextEffect := none }) l u hul
      (by simpa [setUpd] using hl) hreset M q.firstEffect hlM hch1
    simpa [List.append_assoc] using hstep

end React
namespace React

theorem eligCommitted_cons_skip (heap : Heap σ κ) (t u : Nat) (L : List Nat)
    (h : t < (getUpd heap u).expirationTime) :
    eligCommitted heap t (u :: L) = eligCommitted heap t L := by
  simp [eligCommitted, List.filter_cons, h]

theorem eligCommitted_cons_nocommit (heap : Heap σ κ) (t u : Nat) (L : List Nat)
    (hc : (getUpd heap u).commit = none) :
    eligCommitted heap t (u :: L) = eligCommitted heap t L := by
  simp [eligCommitted, List.filter_cons, hc]

theorem eligCommitted_cons_commit (heap : Heap σ κ) (t u : Nat) (L : List Nat) (c : κ)
    (he : ¬ t < (getUpd heap u).expirationTime) (hc : (getUpd heap u).commit = some c) :
    eligCommitted heap t (u :: L) = u :: eligCommitted heap t L := by
  simp [eligCommitted, List.filter_cons, he, hc]

/-- An update whose commit reference is cleared is not re-added to any
effect list: `processSingleUpdate` leaves the heap and the queue (hence
its effect list) unchanged. -/
theorem processSingleUpdate_no_commit (heap : Heap σ κ) (q : UpdateQueue σ) (et : Bool)
    (u : Nat) (s : σ) (h : (getUpd heap u).commit = none) :
    (processSingleUpdate heap q et u s).1 = heap ∧
    (processSingleUpdate heap q et u s).2.1 = q := by
  unfold processSingleUpdate
  rw [h]
  cases (getUpd heap u).process <;> exact ⟨rfl, rfl⟩

/-- An update carrying a commit action is appended to the effect list:
heap and queue come from `addToEffectList`. -/
theorem processSingleUpdate_with_commit (heap : Heap σ κ) (q : UpdateQueue σ) (et : Bool)
    (u : Nat) (s : σ) (c : κ) (h : (getUpd heap u).commit = some c) :
    (processSingleUpdate heap q et u s).1 = (addToEffectList heap q u).1 ∧
    (processSingleUpdate heap q et u s).2.1 = (addToEffectList heap q u).2 := by
  unfold processSingleUpdate
  rw [h]
  cases (getUpd heap u).process <;> exact ⟨rfl, rfl⟩

/-- The labels the pass must fire are exactly the commits of the
eligible-and-committed sublist, in order. -/
theorem eligibleCommits_eq_commitsOf (heap : Heap σ κ) (t : Nat) :
    ∀ (L : List Nat), eligibleCommits heap t L = commitsOf heap (eligCommitted heap t L) := by
  intro L
  induction L with
  | nil => rfl
  | cons u L ih =>
    by_cases he : t < (getUpd heap u).expirationTime
    · rw [eligCommitted_cons_skip heap t u L he]
      simp only [eligibleCommits, List.filterMap_cons, if_pos he]
      exact ih
    · cases hc : (getUpd heap u).commit with
      | none =>
        rw [eligCommitted_cons_nocommit heap t u L hc]
        simp only [eligibleCommits, List.filterMap_cons, if_neg he, hc]
        exact ih
      | some c =>
        rw [eligCommitted_cons_commit heap t u L c he hc]
        simp only [eligibleCommits, commitsOf, List.filterMap_cons, if_neg he, hc]
        simp only [eligibleCommits, commitsOf] at ih
        rw [ih]

/-- Writing a record outside `E` keeps `E`'s commit labels. -/
theorem commitsOf_set_notmem (heap : Heap σ κ) (i : Nat) (v : Update σ κ) :
    ∀ (E : List Nat), i ∉ E → commitsOf (setUpd heap i v) E = commitsOf heap E := by
  intro E
  induction E with
  | nil => intro _; rfl
  | cons e E ih =>
    intro hmem
    have hie : i ≠ e := fun h => hmem (by simp [h])
    simp only [commitsOf, List.filterMap_cons] at ih ⊢
    rw [getUpd_setUpd_ne _ _ _ _ hie, ih (fun hm => hmem (List.mem_cons_of_mem e hm))]

/-- The committer's effect walk: over a duplicate-free effect chain `E`
it appends exactly `E`'s commit labels, in chain order, to the fired
log; it clears the commit reference of every member of `E`; and it
leaves the commit reference of every other record unchanged. -/
theorem commitEffectsWalk_spec :
    ∀ (E : List Nat) (fuel : Nat) (heap : Heap σ κ) (p : Option Nat) (fired : List κ),
      isEffChain heap p E → E.Nodup → (∀ i ∈ E, i < heap.length) → E.length ≤ fuel →
      (commitEffectsWalk fuel heap p fired).2 = fired ++ commitsOf heap E ∧
      (∀ i ∈ E, (getUpd (commitEffectsWalk fuel heap p fired).1 i).commit = none) ∧
      (∀ i, i ∉ E →
        (getUpd (commitEffectsWalk fuel heap p fired).1 i).commit = (getUpd heap i).commit) := by
  intro E
  induction E with
  | nil =>
    intro fuel heap p fired hch _ _ _
    have hp : p = none := by
      cases p with
      | none => rfl
      | some i => exact absurd hch (fun h => h)
    subst hp
    have hid : commitEffectsWalk fuel heap none fired = (heap, fired) := by
      cases fuel <;> rfl
    rw [hid]
    exact ⟨by simp [commitsOf], fun i h => absurd h (List.not_mem_nil i), fun i _ => rfl⟩
  | cons e E ih =>
    intro fuel heap p fired hch hnd hlen hfuel
    rcases p with _ | i
    · exact absurd hch (fun h => h)
    obtain ⟨h1, htail⟩ := hch
    cases fuel with
    | zero => simp at hfuel
    | succ f =>
      have hfuel' : E.length ≤ f := by simpa using hfuel
      have hndE : E.Nodup := hnd.of_cons
      have heE : e ∉ E := by
        intro hm
        exact (List.nodup_cons.mp hnd).1 hm
      have hlenE : ∀ i ∈ E, i < heap.length := fun i hm => hlen i (List.mem_cons_of_mem e hm)
      have hle : e < heap.length := hlen e (by simp)
      rw [h1] at htail ⊢
      simp only [commitEffectsWalk]
      cases hc : (getUpd heap e).commit with
      | none =>
        have H := ih f heap (getUpd heap e).nextEffect fired htail hndE hlenE hfuel'
        refine ⟨?_, ?_, ?_⟩
        · rw [H.1]
          simp [commitsOf, List.filterMap_cons, hc]
        · intro i hm
          rcases List.mem_cons.mp hm with rfl | hm
          · rw [H.2.2 i heE, hc]
          · exact H.2.1 i hm
        · intro i hm
          exact H.2.2 i (fun h => hm (List.mem_cons_of_mem e h))
      | some c =>
        have hsetlen : ∀ i ∈ E, i <
            (setUpd heap e { getUpd heap e with commit := none }).length := by
          intro i hm
          simpa [setUpd] using hlenE i hm
        have hch2 : isEffChain (setUpd heap e { getUpd heap e with commit := none })
            (getUpd (setUpd heap e { getUpd heap e with commit := none }) e).nextEffect E := by
          rw [getUpd_setUpd_self _ _ _ hle]
          exact isEffChain_set_notmem heap e _ E _ heE htail
        have H := ih f (setUpd heap e { getUpd heap e with commit := none })
          (getUpd (setUpd heap e { getUpd heap e with commit := none }) e).nextEffect
          (fired ++ [c]) hch2 hndE hsetlen hfuel'
        have hceq : commitsOf (setUpd heap e { getUpd heap e with commit := none }) E =
            commitsOf heap E := commitsOf_set_notmem heap e _ E heE
        refine ⟨?_, ?_, ?_⟩
        · rw [H.1, hceq]
          simp [commitsOf, List.filterMap_cons, hc]
        · intro i hm
          rcases List.mem_cons.mp hm with rfl | hm
          · rw [H.2.2 i heE, getUpd_setUpd_self _ _ _ hle]
          · exact H.2.1 i hm
        · intro i hm
          have hie : i ≠ e := fun h => hm (by simp [h])
          rw [H.2.2 i (fun h => hm (List.mem_cons_of_mem e h)),
            getUpd_setUpd_ne _ _ _ _ (Ne.symm hie)]

end React
namespace React

/-- The processor's walk builds the effect list: starting with effect
chain `E` and persistent chain `L` (duplicate-free, disjoint, in range,
enough fuel), the walk finishes with effect chain
`E ++ eligCommitted acc.heap t L` — the eligible commit-carrying
updates appended in traversal (= enqueue) order — with `lastEffect` on
its last entry. -/
theorem processListWalk_effects (t : Nat) (ps : Bool) :
    ∀ (L : List Nat) (fuel : Nat) (acc : ProcAcc σ κ) (nf p : Option Nat) (E : List Nat),
      isChain acc.heap p L →
      isEffChain acc.heap acc.queue.firstEffect E →
      acc.queue.lastEffect = E.getLast? →
      L.Nodup → E.Nodup → (∀ i ∈ L, i ∉ E) →
      (∀ i ∈ L, i < acc.heap.length) → (∀ i ∈ E, i < acc.heap.length) →
      L.length ≤ fuel →
      isEffChain (processListWalk t ps fuel acc nf p).1.heap
        (processListWalk t ps fuel acc nf p).1.queue.firstEffect
        (E ++ eligCommitted acc.heap t L) ∧
      (processListWalk t ps fuel acc nf p).1.queue.lastEffect =
        (E ++ eligCommitted acc.heap t L).getLast? := by
  intro L
  induction L with
  | nil =>
    intro fuel acc nf p E hch hech hlast hndL hndE hdisj hlenL hlenE hfuel
    have hp : p = none := by
      cases p with
      | none => rfl
      | some i => exact absurd hch (fun h => h)
    subst hp
    rw [processListWalk_none]
    exact ⟨by simpa [eligCommitted] using hech, by simpa [eligCommitted] using hlast⟩
  | cons u L ih =>
    intro fuel acc nf p E hch hech hlast hndL hndE hdisj hlenL hlenE hfuel
    rcases p with _ | i
    · exact absurd hch (fun h => h)
    obtain ⟨h1, htail⟩ := hch
    cases fuel with
    | zero => simp at hfuel
    | succ f =>
      have hfuel' : L.length ≤ f := by simpa using hfuel
      have hndL' : L.Nodup := hndL.of_cons
      have huL : u ∉ L := (List.nodup_cons.mp hndL).1
      have huE : u ∉ E := hdisj u (by simp)
      have hdisj' : ∀ i ∈ L, i ∉ E := fun i hm => hdisj i (List.mem_cons_of_mem u hm)
      have hlenL' : ∀ i ∈ L, i < acc.heap.length :=
        fun i hm => hlenL i (List.mem_cons_of_mem u hm)
      have hulen : u < acc.heap.length := hlenL u (by simp)
      rw [h1] at htail ⊢
      simp only [processListWalk]
      split
      · -- skip: the effect list is untouched, u drops out of eligCommitted
        rename_i hskip
        rw [eligCommitted_cons_skip acc.heap t u L hskip]
        cases nf <;> (try simp only []) <;> split <;> (try split) <;>
          · refine ih f _ _ _ E ?_ ?_ ?_ ?_ ?_ ?_ ?_ ?_ ?_
            exacts [htail, hech, hlast, hndL', hndE, hdisj', hlenL', hlenE, hfuel']
      · -- process: u is applied
        rename_i hskip
        cases hc : (getUpd acc.heap u).commit with
        | none =>
          -- no commit action: effect list unchanged, u drops out
          obtain ⟨hp1, hp2⟩ :=
            processSingleUpdate_no_commit acc.heap acc.queue acc.effectTag u acc.resultState hc
          rw [eligCommitted_cons_nocommit acc.heap t u L hc, hp1, hp2]
          refine ih f _ _ _ E ?_ ?_ ?_ ?_ ?_ ?_ ?_ ?_ ?_
          exacts [htail, hech, hlast, hndL', hndE, hdisj', hlenL', hlenE, hfuel']
        | some c =>
          -- commit action: u is appended to the effect chain
          obtain ⟨hp1, hp2⟩ :=
            processSingleUpdate_with_commit acc.heap acc.queue acc.effectTag u
              acc.resultState c hc
          have hadd := addToEffectList_effChain acc.heap acc.queue u E hech hlast hndE huE
            hulen hlenE
          have hsame : sameExceptNextEffect acc.heap
              (addToEffectList acc.heap acc.queue u).1 :=
            addToEffectList_sameExcept acc.heap acc.queue u
          have hnext : (getUpd (addToEffectList acc.heap acc.queue u).1 u).next =
              (getUpd acc.heap u).next := (hsame.2 u).2.2.2
          have helig : eligCommitted (addToEffectList acc.heap acc.queue u).1 t L =
              eligCommitted acc.heap t L := eligCommitted_sameExcept hsame t L
          have hndEu : (E ++ [u]).Nodup := by
            simp [List.nodup_append, hndE, huE]
          have hdisjEu : ∀ i ∈ L, i ∉ E ++ [u] := by
            intro i hm
            simp only [List.mem_append, List.mem_singleton]
            rintro (hmE | rfl)
            · exact hdisj' i hm hmE
            · exact huL hm
          have hlenL2 : ∀ i ∈ L, i < (addToEffectList acc.heap acc.queue u).1.length := by
            intro i hm
            rw [hsame.1]
            exact hlenL' i hm
          have hlenE2 : ∀ i ∈ E ++ [u],
              i < (addToEffectList acc.heap acc.queue u).1.length := by
            intro i hm
            rw [hsame.1]
            rcases List.mem_append.mp hm with hmE | hmu
            · exact hlenE i hmE
            · rw [List.mem_singleton.mp hmu]
              exact hulen
          rw [eligCommitted_cons_commit acc.heap t u L c hskip hc, hp1, hp2]
          try simp only []
          rw [hnext, ← helig, ← List.singleton_append, ← List.append_assoc]
          refine ih f _ _ _ (E ++ [u]) ?_ ?_ ?_ ?_ ?_ ?_ ?_ ?_ ?_
          exacts [isChain_sameExcept hsame L _ htail, hadd.1,
            by rw [hadd.2, List.getLast?_concat], hndL', hndEu, hdisjEu,
            hlenL2, hlenE2, hfuel']

end React
namespace React

set_option maxHeartbeats 1000000 in
/-- One non-bailout run of `processUpdateQueue` on a lone fiber whose
queue holds the persistent list `L` (and nothing else): afterwards the
processed queue's effect list is exactly the eligible commit-carrying
updates of `L` in enqueue order, its transient lists stay empty, the
heap is changed only in `nextEffect` links, and the fired log and queue
count are untouched. -/
theorem processUpdateQueue_effects [Inhabited σ] (fuel : Nat) (w : World σ κ) (qid t : Nat)
    (L : List Nat)
    (halt : w.alternate = none)
    (hrun : ¬((getQueue w qid).expirationTime = NoWork ∨
              t < (getQueue w qid).expirationTime))
    (hch : isChain w.heap (getQueue w qid).firstUpdate L)
    (hRP : (getQueue w qid).firstRenderPhaseUpdate = none)
    (hCap : (getQueue w qid).firstCapturedUpdate = none)
    (hfe : (getQueue w qid).firstEffect = none)
    (hle : (getQueue w qid).lastEffect = none)
    (hnd : L.Nodup) (hlen : ∀ i ∈ L, i < w.heap.length) (hfuel : L.length ≤ fuel) :
    isEffChain (processUpdateQueue fuel w qid t).heap
      (getQueue (processUpdateQueue fuel w qid t) qid).firstEffect
      (eligCommitted w.heap t L) ∧
    (getQueue (processUpdateQueue fuel w qid t) qid).lastEffect =
      (eligCommitted w.heap t L).getLast? ∧
    (getQueue (processUpdateQueue fuel w qid t) qid).firstRenderPhaseUpdate = none ∧
    (getQueue (processUpdateQueue fuel w qid t) qid).firstCapturedUpdate = none ∧
    sameExceptNextEffect w.heap (processUpdateQueue fuel w qid t).heap ∧
    (processUpdateQueue fuel w qid t).fired = w.fired ∧
    (processUpdateQueue fuel w qid t).queues.length = w.queues.length := by
  have hqid := active_qid_lt w qid t hrun
  have W := processListWalk_effects t false L fuel
    { heap := w.heap, queue := getQueue w qid, effectTag := w.fiber.effectTag,
      resultState := (getQueue w qid).baseState,
      newBaseState := (getQueue w qid).baseState,
      newExpirationTime := NoWork, baseWrites := 0 }
    none (getQueue w qid).firstUpdate [] hch
    (by show isEffChain w.heap (getQueue w qid).firstEffect []
        rw [hfe]; trivial)
    (by show (getQueue w qid).lastEffect = List.getLast? []
        rw [hle]; rfl)
    hnd (by simp) (by simp) hlen (by simp) hfuel
  have S := processListWalk_sameExcept t false fuel
    { heap := w.heap, queue := getQueue w qid, effectTag := w.fiber.effectTag,
      resultState := (getQueue w qid).baseState,
      newBaseState := (getQueue w qid).baseState,
      newExpirationTime := NoWork, baseWrites := 0 }
    none (getQueue w qid).firstUpdate
  simp only [List.nil_append] at W
  simp only [processUpdateQueue, processUpdateQueueAux, if_neg hrun,
    ensureWorkInProgressQueueIsAClone, halt, hRP, hCap, processListWalk_none]
  simp only [getQueue, List.getElem?_set_self hqid, Option.getD_some, List.length_set]
  refine ⟨?_, ?_, ?_, ?_, ?_, ?_, ?_⟩
  · simp [apply_ite UpdateQueue.firstEffect]
    simpa [getQueue] using W.1
  · simp [apply_ite UpdateQueue.lastEffect]
    simpa [getQueue] using W.2
  · simp
  · simp
  · simpa [getQueue] using S
  · simp
  · simp

end React
namespace React

set_option maxHeartbeats 1000000 in
/-- C3: for any duplicate-free sequence of enqueued updates `L` on a
queue with no other pending lists, processing at priority `t` and then
committing (i) appends to the fired log exactly the commit labels of the
eligible updates, in their original enqueue order — so each update's
action fires exactly once in that pass; (ii) leaves the fiber exactly as
the processor stored it, the commits firing strictly after all process
transforms of the accepted pass were computed; (iii) clears the commit
reference of every eligible update; and (iv) consequently a later
`processSingleUpdate` of any such update mutates neither the heap nor
any queue's effect list, so a reprocessed update is never re-added and
never fires twice. -/
theorem c3_commit_exactly_once [Inhabited σ] (fuel : Nat) (w : World σ κ) (qid t : Nat)
    (L : List Nat)
    (halt : w.alternate = none)
    (hrun : ¬((getQueue w qid).expirationTime = NoWork ∨
              t < (getQueue w qid).expirationTime))
    (hch : isChain w.heap (getQueue w qid).firstUpdate L)
    (hRP : (getQueue w qid).firstRenderPhaseUpdate = none)
    (hCap : (getQueue w qid).firstCapturedUpdate = none)
    (hfe : (getQueue w qid).firstEffect = none)
    (hle : (getQueue w qid).lastEffect = none)
    (hnd : L.Nodup) (hlen : ∀ i ∈ L, i < w.heap.length) (hfuel : L.length ≤ fuel) :
    (commitUpdateQueue fuel (processUpdateQueue fuel w qid t) qid).fired =
      w.fired ++ eligibleCommits w.heap t L ∧
    (commitUpdateQueue fuel (processUpdateQueue fuel w qid t) qid).fiber =
      (processUpdateQueue fuel w qid t).fiber ∧
    (∀ u ∈ L, ¬ t < (getUpd w.heap u).expirationTime →
      (getUpd (commitUpdateQueue fuel (processUpdateQueue fuel w qid t) qid).heap u).commit
        = none) ∧
    (∀ u ∈ L, ¬ t < (getUpd w.heap u).expirationTime →
      ∀ (q : UpdateQueue σ) (et : Bool) (s : σ),
        (processSingleUpdate
            (commitUpdateQueue fuel (processUpdateQueue fuel w qid t) qid).heap
            q et u s).1 =
          (commitUpdateQueue fuel (processUpdateQueue fuel w qid t) qid).heap ∧
        (processSingleUpdate
            (commitUpdateQueue fuel (processUpdateQueue fuel w qid t) qid).heap
            q et u s).2.1 = q) := by
  obtain ⟨P1, P2, P3, P4, P5, P6, P7⟩ :=
    processUpdateQueue_effects fuel w qid t L halt hrun hch hRP hCap hfe hle hnd hlen hfuel
  have hndE : (eligCommitted w.heap t L).Nodup := hnd.filter _
  have hlenE : ∀ i ∈ eligCommitted w.heap t L,
      i < (processUpdateQueue fuel w qid t).heap.length := by
    intro i hm
    rw [P5.1]
    exact hlen i (List.mem_of_mem_filter hm)
  have hfuelE : (eligCommitted w.heap t L).length ≤ fuel :=
    le_trans (List.length_filter_le _ L) hfuel
  obtain ⟨C1, C2, C3⟩ := commitEffectsWalk_spec (eligCommitted w.heap t L) fuel
    (processUpdateQueue fuel w qid t).heap
    (getQueue (processUpdateQueue fuel w qid t) qid).firstEffect
    (processUpdateQueue fuel w qid t).fired P1 hndE hlenE hfuelE
  have hclear : ∀ u ∈ L, ¬ t < (getUpd w.heap u).expirationTime →
      (getUpd (commitEffectsWalk fuel (processUpdateQueue fuel w qid t).heap
        (getQueue (processUpdateQueue fuel w qid t) qid).firstEffect
        (processUpdateQueue fuel w qid t).fired).1 u).commit = none := by
    intro u hm he
    cases hc : (getUpd w.heap u).commit with
    | some c =>
      refine C2 u (List.mem_filter.mpr ⟨hm, ?_⟩)
      simp [he, hc]
    | none =>
      have hnm : u ∉ eligCommitted w.heap t L := by
        intro hmem
        have := List.of_mem_filter hmem
        simp [hc] at this
      rw [C3 u hnm, (P5.2 u).2.2.1, hc]
  simp only [commitUpdateQueue, P3, P4]
  refine ⟨?_, ?_, ?_, ?_⟩
  · rw [C1, P6, commitsOf_sameExcept P5, ← eligibleCommits_eq_commitsOf]
  · trivial
  · exact hclear
  · intro u hm he q et s
    exact processSingleUpdate_no_commit _ q et u s (hclear u hm he)

/-- Witness for C3 at the design-rationale world: pass at priority 1
then commit fires exactly the eligible updates' labels in enqueue
order. -/
theorem c3_witness :
    (commitUpdateQueue 20 (processUpdateQueue 20 commitLogWorld 0 1) 0).fired =
      commitLogWorld.fired ++ eligibleCommits commitLogWorld.heap 1 [0, 1, 2, 3] :=
  (c3_commit_exactly_once 20 commitLogWorld 0 1 [0, 1, 2, 3] rfl (by decide) (by decide)
    rfl rfl rfl rfl (by decide) (by decide) (by decide)).1

end React
